import Mathlib

set_option maxRecDepth 8000

/-!
Verification development for the searchy NL-to-SQL service.

SQL statements are modelled as Lean strings (lists of characters); the
JavaScript regular expressions of the source are modelled character by
character (word characters, whitespace and case mapping are the ASCII
classes used by the source patterns).  Stateful parts (pool registry,
card cache, the /query pipeline) are modelled as explicit state-passing
functions; the response-shaping loop is modelled with explicit fuel.
-/

namespace Searchy

/-- Whitespace characters: the ASCII subset of the regex class backslash-s
(space, tab, line feed, vertical tab, form feed, carriage return). -/
def wsChar (c : Char) : Bool :=
  decide (c.toNat = 32 ∨ c.toNat = 9 ∨ c.toNat = 10 ∨ c.toNat = 13 ∨ c.toNat = 11 ∨ c.toNat = 12)

/-- Word characters of the regex metacharacter backslash-w: ASCII letters, digits, underscore. -/
def isWordChar (c : Char) : Bool :=
  decide ((97 ≤ c.toNat ∧ c.toNat ≤ 122) ∨ (65 ≤ c.toNat ∧ c.toNat ≤ 90) ∨
    (48 ≤ c.toNat ∧ c.toNat ≤ 57) ∨ c.toNat = 95)

/-- Decimal digit characters, the regex class backslash-d. -/
def digitChar (c : Char) : Bool := decide (48 ≤ c.toNat ∧ c.toNat ≤ 57)

/-- Lower-case alphabet used to map upper-case ASCII letters down. -/
def lowerTable : List Char := ("abcdefghijklmnopqrstuvwxyz").data

/-- ASCII lower-casing of one character (the effect of toLowerCase and of
case-insensitive regex matching on the ASCII SQL keywords involved). -/
def lowerChar (c : Char) : Char :=
  if 65 ≤ c.toNat ∧ c.toNat ≤ 90 then lowerTable.getD (c.toNat - 65) c else c

/-- Lower-casing of a character list. -/
def lower (l : List Char) : List Char := l.map lowerChar

/-- Model of the JavaScript String.prototype.trim. -/
def jsTrim (l : List Char) : List Char :=
  ((l.dropWhile wsChar).reverse.dropWhile wsChar).reverse

/-- Literal occurrence of pattern pat at index i of l. -/
def occursAt (pat l : List Char) (i : Nat) : Bool := pat.isPrefixOf (l.drop i)

/-- Is there a word character just before position p? -/
def wordBeforeAt (l : List Char) (p : Nat) : Bool :=
  decide (0 < p) && isWordChar (l.getD (p - 1) ' ')

/-- Is there a word character at position p? -/
def wordAfterAt (l : List Char) (p : Nat) : Bool := isWordChar (l.getD p ' ')

/-- Regex word boundary at position p of l. -/
def boundaryAt (l : List Char) (p : Nat) : Bool := wordBeforeAt l p != wordAfterAt l p

/-- Occurrence of pat at index i of l with word boundaries on both sides. -/
def occursWordAt (pat l : List Char) (i : Nat) : Bool :=
  occursAt pat l i && boundaryAt l i && boundaryAt l (i + pat.length)

/-- Does the word-bounded pattern pat occur anywhere in l? -/
def hasWord (pat l : List Char) : Bool := (List.range (l.length + 1)).any (occursWordAt pat l)

/-- Does pat occur anywhere in l as a plain substring? -/
def hasSub (pat l : List Char) : Bool := (List.range (l.length + 1)).any (occursAt pat l)

/-- The twelve banned keywords of the BANNED regex in src/guards/sqlGuard.ts,
in lower case. -/
def bannedKeywords : List (List Char) :=
  [("insert").data, ("update").data, ("delete").data, ("alter").data,
   ("drop").data, ("create").data, ("truncate").data, ("copy").data,
   ("grant").data, ("revoke").data, ("vacuum").data, ("analyze").data]

/-- Start-of-statement check: the anchored regex (SELECT|WITH) followed by a
word boundary, applied to the lowered statement. -/
def startKeywordOK (ls : List Char) : Bool :=
  occursWordAt (("select").data) ls 0 || occursWordAt (("with").data) ls 0

/-- Match of the system-schema regex alternative at index i: a word boundary,
then pg_catalog or information_schema, then a literal dot. -/
def sysSchemaAt (ls : List Char) (i : Nat) : Bool :=
  boundaryAt ls i &&
    (occursAt (("pg_catalog.").data) ls i || occursAt (("information_schema.").data) ls i)

/-- Does the statement reference a system schema by qualified name? -/
def hasSysSchema (ls : List Char) : Bool := (List.range (ls.length + 1)).any (sysSchemaAt ls)

/-- The function isSafeSelect of src/guards/sqlGuard.ts on character lists:
trim, require a SELECT/WITH start, no semicolon, no banned keyword as a
whole word (case-insensitive), no system-schema reference. -/
def isSafeSelectL (l : List Char) : Bool :=
  let s := jsTrim l
  let ls := lower s
  if !startKeywordOK ls then false
  else if s.contains ';' then false
  else if bannedKeywords.any (fun w => hasWord w ls) then false
  else if hasSysSchema ls then false
  else true

/-- The function isSafeSelect of src/guards/sqlGuard.ts. -/
def isSafeSelect (sql : String) : Bool := isSafeSelectL sql.data

/-- Digit character of a value below ten. -/
def digitOf (r : Nat) : Char := (['0','1','2','3','4','5','6','7','8','9']).getD r '0'

/-- Helper for decimal notation: fuel-driven digit accumulation. -/
def natToCharsAux : Nat → Nat → List Char → List Char
  | 0, _, acc => acc
  | fuel + 1, n, acc => if n = 0 then acc else natToCharsAux fuel (n / 10) (digitOf (n % 10) :: acc)

/-- Decimal notation of a natural number, as produced by JavaScript template
interpolation of an integer. -/
def natToChars (n : Nat) : List Char := if n = 0 then ['0'] else natToCharsAux n n []

/-- The function ensureLimit of src/guards/sqlGuard.ts on character lists:
return the trimmed statement if it contains the word limit anywhere
(case-insensitive), otherwise append a LIMIT clause to it. -/
def ensureLimitL (l : List Char) (maxL : Nat) : List Char :=
  let s := jsTrim l
  if hasWord (("limit").data) (lower s) then s
  else s ++ (" LIMIT ").data ++ natToChars maxL

/-- The function ensureLimit of src/guards/sqlGuard.ts. -/
def ensureLimit (sql : String) (maxL : Nat := 1000) : String := ⟨ensureLimitL sql.data maxL⟩

/-- Consume pattern pat at the front of l, or fail. -/
def dropLit (pat l : List Char) : Option (List Char) :=
  if pat.isPrefixOf l then some (l.drop pat.length) else none

/-- Consume at least one whitespace character, then greedily all following
whitespace (regex backslash-s plus). -/
def wsPlus (l : List Char) : Option (List Char) :=
  match l with
  | [] => none
  | c :: rest => if wsChar c then some (rest.dropWhile wsChar) else none

/-- Match of the regex order backslash-s+ by backslash-s+ random
backslash-s* ( backslash-s* ) at the front of an (already lowered) list.
The greedy whitespace runs are deterministic because each is followed by a
non-whitespace literal. -/
def matchRandomAt (l : List Char) : Bool :=
  (do
    let l1 ← dropLit (("order").data) l
    let l2 ← wsPlus l1
    let l3 ← dropLit (("by").data) l2
    let l4 ← wsPlus l3
    let l5 ← dropLit (("random").data) l4
    let l6 := l5.dropWhile wsChar
    let l7 ← dropLit (("(").data) l6
    let l8 := l7.dropWhile wsChar
    let _ ← dropLit ((")").data) l8
    pure ()).isSome

/-- The function hasRandomOrder of src/guards/sqlGuard.ts on character lists. -/
def hasRandomOrderL (l : List Char) : Bool :=
  let ls := lower l
  (List.range (ls.length + 1)).any (fun i => matchRandomAt (ls.drop i))

/-- The function hasRandomOrder of src/guards/sqlGuard.ts. -/
def hasRandomOrder (sql : String) : Bool := hasRandomOrderL sql.data

/-- Numeric value of a list of decimal digit characters. -/
def digitsToNat (ds : List Char) : Nat := ds.foldl (fun a c => 10 * a + (c.toNat - 48)) 0

/-- Match of the regex backslash-b limit backslash-s+ ( backslash-d+ ) at
index i of the lowered statement, yielding the captured number. -/
def limitNumAt (ls : List Char) (i : Nat) : Option Nat :=
  if boundaryAt ls i && occursAt (("limit").data) ls i then
    match wsPlus (ls.drop (i + 5)) with
    | none => none
    | some rest =>
      let ds := rest.takeWhile digitChar
      if ds.isEmpty then none else some (digitsToNat ds)
  else none

/-- The function limitValue of src/guards/sqlGuard.ts on character lists:
the first (leftmost) match of the limit pattern, if any. -/
def limitValueL (l : List Char) : Option Nat :=
  let ls := lower l
  (List.range (ls.length + 1)).findSome? (limitNumAt ls)

/-- The function limitValue of src/guards/sqlGuard.ts. -/
def limitValue (sql : String) : Option Nat := limitValueL sql.data

/-! The /query pipeline of src/server.ts, from the generator output to the
statement handed to runSelect and the shaped response.  Rejections carry
their HTTP status (the err.status consumed by the error middleware); rows
are abstracted by the byte length of their individual JSON serializations,
which determines the serialized size of every row slice. -/

/-- Shape of a successful /query response (rows abstracted to byte sizes). -/
structure QueryResp where
  rows : List Nat
  rowCount : Nat
  sql : String
  truncated : Bool
deriving DecidableEq

/-- Guard section of the /query handler: reject unsafe SQL with status 400,
reject ORDER BY RANDOM() with status 400, normalize through ensureLimit
with the minimum of MAX_LIMIT and 1000, reject a declared limit above
MAX_LIMIT with status 400, and otherwise yield the statement passed on to
runSelect. -/
def guardPhase (maxLimit : Nat) (rawSql : String) : Except Nat String :=
  if !isSafeSelect rawSql then .error 400
  else if hasRandomOrder rawSql then .error 400
  else
    let limitedSql := ensureLimit rawSql (Nat.min maxLimit 1000)
    match limitValue limitedSql with
    | some l => if l ≠ 0 ∧ maxLimit < l then .error 400 else .ok limitedSql
    | none => .ok limitedSql

/-- Byte length of the JSON serialization of a row array whose individual
rows serialize to the given byte counts: brackets plus rows plus commas. -/
def serSize (rows : List Nat) : Nat := 2 + rows.sum + (rows.length - 1)

/-- One-step-at-a-time model of the progressive-truncation while loop of
src/server.ts (n is the mutable row count, rows the current slice).  The
fuel argument only counts loop iterations; none means the loop has not
exited within the given fuel. -/
def shrinkLoop (budget : Nat) : Nat → Nat → List Nat → Option (List Nat)
  | 0, _, _ => none
  | fuel + 1, n, rows =>
    if 0 < n ∧ budget < serSize rows then
      shrinkLoop budget fuel (Nat.max 1 (n * 7 / 10)) (rows.take (Nat.max 1 (n * 7 / 10)))
    else some rows

/-- Response-size shaping of src/server.ts: if the serialized rows exceed
the budget, run the shrink loop, flag the response truncated and report the
truncated length; otherwise report the executed row count unchanged. -/
def shapeResponse (budget fuel : Nat) (rows : List Nat) (rowCount : Nat) :
    Option (List Nat × Nat × Bool) :=
  if budget < serSize rows then
    match shrinkLoop budget fuel rows.length rows with
    | some rows2 => some (rows2, rows2.length, true)
    | none => none
  else some (rows, rowCount, false)

/-- The /query pipeline from the generator output onward: guard checks,
then execution of the guarded statement (whose fetched rows and row count
are inputs here), then response shaping.  The outer Except is a rejection
with its HTTP status; the inner none means the shaping loop diverged. -/
def queryPipeline (maxLimit budget fuel : Nat) (rawSql : String)
    (execRows : List Nat) (execCount : Nat) : Except Nat (Option QueryResp) :=
  match guardPhase maxLimit rawSql with
  | .error e => .error e
  | .ok sqlStr =>
    .ok ((shapeResponse budget fuel execRows execCount).map
      (fun r => { rows := r.1, rowCount := r.2.1, sql := sqlStr, truncated := r.2.2 }))

/-! The relation-card cache of src/server.ts: a (timestamp, cards) entry
per connection string, refreshed when absent or older than the TTL. -/

/-- One cache consult of the /query handler for a fixed connection string:
given the current entry (if any), the clock value now and the cards a fresh
introspection would build, return the cards served, the entry stored
afterwards, and whether an introspection ran. -/
def getCardsStep {α : Type} (ttlSeconds : Nat) (now : Int) (entry : Option (Int × α))
    (fresh : α) : α × (Int × α) × Bool :=
  match entry with
  | some (ts, cards) =>
    if (ttlSeconds : Int) * 1000 < now - ts then (fresh, (now, fresh), true)
    else (cards, (ts, cards), false)
  | none => (fresh, (now, fresh), true)

/-! The connection-pool registry of src/adapters/postgres.ts: the LRU class
over a JavaScript Map, whose iteration order is insertion order, so the
head of the list is the least recently used entry and the last element the
most recently used.  Pools are identified by creation order; the closed
field records the pools whose end/close was invoked (the source never
invokes it). -/

/-- JavaScript Map.get on an association list with unique keys. -/
def lookupA (k : String) (m : List (String × Nat)) : Option Nat :=
  (m.find? (fun p => p.1 == k)).map (fun p => p.2)

/-- JavaScript Map.delete of key k. -/
def eraseKey (k : String) (m : List (String × Nat)) : List (String × Nat) :=
  m.eraseP (fun p => p.1 == k)

/-- The get method of the LRU class: on a hit, delete and re-insert the
entry, moving it to most-recently-used position. -/
def lruGet (k : String) (m : List (String × Nat)) : Option Nat × List (String × Nat) :=
  match lookupA k m with
  | none => (none, m)
  | some v => (some v, eraseKey k m ++ [(k, v)])

/-- The set method of the LRU class: delete a pre-existing entry for the
key, append the new entry, and if the size now exceeds the capacity delete
the first (least recently used) entry. -/
def lruSet (cap : Nat) (k : String) (v : Nat) (m : List (String × Nat)) :
    List (String × Nat) :=
  let m1 := if m.any (fun p => p.1 == k) then eraseKey k m else m
  let m2 := m1 ++ [(k, v)]
  if cap < m2.length then m2.tail else m2

/-- State of the pool registry: the LRU entries (key, pool id) in
least-to-most recently used order, the next fresh pool id, and the set of
pool ids whose resources were released. -/
structure RegState where
  entries : List (String × Nat)
  nextId : Nat
  closed : List Nat
deriving DecidableEq

/-- The function getPool of src/adapters/postgres.ts: return the cached
pool on a hit (promoting it), otherwise construct a fresh pool and insert
it through the LRU set method.  No branch ever releases an evicted pool. -/
def getPool (cap : Nat) (k : String) (st : RegState) : Nat × RegState :=
  match lruGet k st.entries with
  | (some v, m2) => (v, { st with entries := m2 })
  | (none, _) =>
    (st.nextId,
     { entries := lruSet cap k st.nextId st.entries,
       nextId := st.nextId + 1,
       closed := st.closed })

/-! The relevance selector of src/schema/rag.ts.  Scores are modelled in
the real numbers (the source computes in floating point); sorting uses the
stable merge sort of the standard library, matching the stable
Array.prototype.sort applied to the comparator of the source.  The name
tie-break of that comparator calls localeCompare, whose order under the
runtime is locale-sensitive ICU collation - external library data, not
part of this repository - so the embedding stands it in with a fixed
code-point order; no theorem below depends on which total order the
tie-break is. -/

/-- Relation kind of src/adapters/db.ts. -/
inductive RelationKind
  | table
  | view
deriving DecidableEq

/-- Column descriptor of src/adapters/db.ts (fields used by the pipeline). -/
structure ColumnMeta where
  name : String
  ty : String
  pk : Bool
  indexed : Bool
  nullable : Bool
deriving DecidableEq

/-- Relation card of src/adapters/db.ts; the row estimate is a rational
standing for the JavaScript number. -/
structure RelationCard where
  name : String
  kind : RelationKind
  columns : List ColumnMeta
  join_hints : List String
  row_estimate : Option ℚ
deriving DecidableEq

/-- Characters kept by the tokenizer replacement step: lower-case letters,
digits, underscore, dot, and whitespace (everything else becomes a space). -/
def keepChar (c : Char) : Bool :=
  decide ((97 ≤ c.toNat ∧ c.toNat ≤ 122) ∨ (48 ≤ c.toNat ∧ c.toNat ≤ 57) ∨
    c.toNat = 95 ∨ c.toNat = 46) || wsChar c

/-- Fuel-driven splitting of a character list into maximal non-whitespace
runs (the effect of split on backslash-s+ followed by filtering out empty
strings). -/
def splitTokensAux : Nat → List Char → List (List Char)
  | 0, _ => []
  | fuel + 1, l =>
    let l1 := l.dropWhile wsChar
    match l1 with
    | [] => []
    | _ :: _ =>
      l1.takeWhile (fun c => !wsChar c) :: splitTokensAux fuel (l1.dropWhile (fun c => !wsChar c))

/-- Maximal non-whitespace runs of a character list. -/
def splitTokens (l : List Char) : List (List Char) := splitTokensAux (l.length + 1) l

/-- The function tokenize of src/schema/rag.ts: lower-case, replace every
character outside the kept classes by a space, split on whitespace runs,
drop empty tokens. -/
def tokenize (s : String) : List (List Char) :=
  splitTokens ((lower s.data).map (fun c => if keepChar c then c else ' '))

/-- Search haystack of one card: name, column names and join hints joined
by spaces and lowered. -/
def haystack (c : RelationCard) : List Char :=
  lower ((String.intercalate " " (c.name :: (c.columns.map (fun col => col.name) ++ c.join_hints))).data)

/-- Non-overlapping scan counting word-bounded matches of t in hay, the
match count of a global word-bounded regex: on a match the scan resumes
right after it, otherwise it advances one position. -/
def countOccAux (t hay : List Char) : Nat → Nat → Nat → Nat
  | 0, _, acc => acc
  | fuel + 1, i, acc =>
    if hay.length < i + t.length then acc
    else if occursWordAt t hay i then countOccAux t hay fuel (i + t.length) (acc + 1)
    else countOccAux t hay fuel (i + 1) acc

/-- Number of word-bounded matches of t in hay. -/
def countOcc (t hay : List Char) : Nat := countOccAux t hay (hay.length + 1) 0 0

/-- Code-point comparison of character lists, standing in for the
localeCompare call of the source; the actual ICU collation order is not
determined by the repository and may differ from this one. -/
def lexCmp : List Char → List Char → Ordering
  | [], [] => .eq
  | [], _ :: _ => .lt
  | _ :: _, [] => .gt
  | a :: as, b :: bs =>
    if a.toNat < b.toNat then .lt
    else if b.toNat < a.toNat then .gt
    else lexCmp as bs

/-- Score contribution of one token for one card in src/schema/rag.ts:
the word-bounded match count in the haystack, plus one half when the card
name contains the token as a plain substring. -/
noncomputable def scoreTok (c : RelationCard) (t : List Char) : ℝ :=
  (countOcc t (haystack c) : ℝ) + (if hasSub t c.name.data then (1 : ℝ) / 2 else 0)

/-- Total score of one card for a phrase in src/schema/rag.ts: token
contributions plus the small-relation bias 1 / log10(estimate + 10) when a
row estimate is present. -/
noncomputable def score (phrase : String) (c : RelationCard) : ℝ :=
  ((tokenize phrase).map (scoreTok c)).sum +
    (match c.row_estimate with
     | some e => 1 / Real.logb 10 ((e : ℝ) + 10)
     | none => 0)

/-- Comparator of the sort in pickTopK, as the before-or-equivalent
relation on (card, score) pairs induced by the JavaScript comparator
b.score - a.score or else the name comparison (the stand-in for
localeCompare above). -/
noncomputable def pairLE (a b : RelationCard × ℝ) : Bool :=
  decide (b.2 < a.2 ∨ (a.2 = b.2 ∧ lexCmp a.1.name.data b.1.name.data ≠ .gt))

/-- The function pickTopK of src/schema/rag.ts: score every card, sort
descending by score with ties by the name comparison (stable), and keep
the first max 1 k cards. -/
noncomputable def pickTopK (cards : List RelationCard) (phrase : String) (k : Nat := 6) :
    List RelationCard :=
  let scored := cards.map (fun c => (c, score phrase c))
  let sorted := scored.mergeSort pairLE
  (sorted.take (Nat.max 1 k)).map (fun x => x.1)

/-! Supporting lemmas about the character classes. -/

lemma ws_not_word {c : Char} (h : wsChar c = true) : isWordChar c = false := by
  simp only [wsChar, decide_eq_true_eq] at h
  simp only [isWordChar, decide_eq_false_iff_not]
  omega

lemma lowerTable_length : lowerTable.length = 26 := rfl

lemma lowerTable_toNat : ∀ i, (h : i < 26) →
    (lowerTable.get (Fin.mk i (lowerTable_length ▸ h))).toNat = 97 + i := by
  decide

lemma lowerChar_toNat_of_upper {c : Char} (h1 : 65 ≤ c.toNat) (h2 : c.toNat ≤ 90) :
    (lowerChar c).toNat = c.toNat + 32 := by
  unfold lowerChar
  rw [if_pos ⟨h1, h2⟩]
  have hlt : c.toNat - 65 < lowerTable.length := by rw [lowerTable_length]; omega
  rw [List.getD_eq_getElem _ _ hlt]
  have h3 : (getElem lowerTable (c.toNat - 65) hlt).toNat = 97 + (c.toNat - 65) :=
    lowerTable_toNat (c.toNat - 65) (by omega)
  omega

lemma lowerChar_eq_self {c : Char} (h : ¬(65 ≤ c.toNat ∧ c.toNat ≤ 90)) : lowerChar c = c := by
  unfold lowerChar
  rw [if_neg h]

lemma wsChar_lowerChar (c : Char) : wsChar (lowerChar c) = wsChar c := by
  by_cases h : 65 ≤ c.toNat ∧ c.toNat ≤ 90
  · have h2 := lowerChar_toNat_of_upper h.1 h.2
    simp only [wsChar, decide_eq_decide]
    rw [h2]
    omega
  · rw [lowerChar_eq_self h]

lemma isWordChar_lowerChar (c : Char) : isWordChar (lowerChar c) = isWordChar c := by
  by_cases h : 65 ≤ c.toNat ∧ c.toNat ≤ 90
  · have h2 := lowerChar_toNat_of_upper h.1 h.2
    simp only [isWordChar, decide_eq_decide]
    rw [h2]
    omega
  · rw [lowerChar_eq_self h]

lemma lower_all_ws {l : List Char} (h : ∀ c ∈ l, wsChar c = true) :
    ∀ c ∈ lower l, wsChar c = true := by
  intro c hc
  rcases List.mem_map.mp hc with ⟨a, ha, rfl⟩
  rw [wsChar_lowerChar]
  exact h a ha

/-! Supporting lemmas about literal prefixes and indexed access. -/

lemma isPrefixOf_iff_ex {pat l : List Char} : pat.isPrefixOf l = true ↔ ∃ t, l = pat ++ t := by
  induction pat generalizing l with
  | nil => simp [List.isPrefixOf]
  | cons a as ih =>
    cases l with
    | nil => simp [List.isPrefixOf]
    | cons b bs =>
      show (a == b && as.isPrefixOf bs) = true ↔ _
      simp only [Bool.and_eq_true, beq_iff_eq, ih, List.cons_append, List.cons.injEq]
      constructor
      · rintro ⟨rfl, t, rfl⟩
        exact ⟨t, rfl, rfl⟩
      · rintro ⟨t, rfl, rfl⟩
        exact ⟨rfl, t, rfl⟩

lemma isPrefixOf_append_ext {pat x y : List Char} (h : pat.isPrefixOf x = true) :
    pat.isPrefixOf (x ++ y) = true := by
  rcases isPrefixOf_iff_ex.mp h with ⟨t, rfl⟩
  exact isPrefixOf_iff_ex.mpr ⟨t ++ y, by simp⟩

lemma isPrefixOf_length_le {pat x : List Char} (h : pat.isPrefixOf x = true) :
    pat.length ≤ x.length := by
  rcases isPrefixOf_iff_ex.mp h with ⟨t, rfl⟩
  simp

lemma getD_mem {l : List Char} {n : Nat} {d : Char} (h : n < l.length) : l.getD n d ∈ l := by
  rw [List.getD_eq_getElem _ _ h]
  exact List.getElem_mem h

lemma isPrefixOf_of_append_ws {pat x y : List Char} (hpat : ∀ c ∈ pat, wsChar c = false)
    (hy : ∀ c ∈ y, wsChar c = true) (h : pat.isPrefixOf (x ++ y) = true) :
    pat.isPrefixOf x = true := by
  by_cases hlen : pat.length ≤ x.length
  · rcases isPrefixOf_iff_ex.mp h with ⟨t, ht⟩
    have h1 : (x ++ y).take pat.length = x.take pat.length :=
      List.take_append_of_le_length hlen
    have h2 : (x ++ y).take pat.length = pat := by
      rw [ht]
      exact List.take_left pat t
    apply isPrefixOf_iff_ex.mpr ⟨x.drop pat.length, ?_⟩
    conv_lhs => rw [← List.take_append_drop pat.length x]
    rw [← h1, h2]
  · exfalso
    push_neg at hlen
    rcases isPrefixOf_iff_ex.mp h with ⟨t, ht⟩
    have hylen : 0 < y.length := by
      have := congrArg List.length ht
      simp only [List.length_append] at this
      omega
    have h1 : (x ++ y).getD x.length ' ' = y.getD 0 ' ' := by
      rw [List.getD_append_right _ _ _ _ le_rfl, Nat.sub_self]
    have h2 : (x ++ y).getD x.length ' ' = pat.getD x.length ' ' := by
      rw [ht, List.getD_append _ _ _ _ hlen]
    have h3 : wsChar (y.getD 0 ' ') = true := hy _ (getD_mem hylen)
    have h4 : wsChar (pat.getD x.length ' ') = false := hpat _ (getD_mem hlen)
    rw [h1] at h2
    rw [h2] at h3
    rw [h3] at h4
    cases h4

/-! Supporting lemmas about jsTrim. -/

lemma trim_decomp (l : List Char) :
    ∃ a b, l = a ++ jsTrim l ++ b ∧ (∀ c ∈ a, wsChar c = true) ∧ (∀ c ∈ b, wsChar c = true) := by
  refine ⟨l.takeWhile wsChar, ((l.dropWhile wsChar).reverse.takeWhile wsChar).reverse, ?_,
    fun c hc => List.mem_takeWhile_imp hc, ?_⟩
  · conv_lhs => rw [← List.takeWhile_append_dropWhile wsChar l]
    rw [List.append_assoc]
    congr 1
    have h1 : (l.dropWhile wsChar).reverse =
        (l.dropWhile wsChar).reverse.takeWhile wsChar ++ (l.dropWhile wsChar).reverse.dropWhile wsChar :=
      (List.takeWhile_append_dropWhile wsChar _).symm
    have h2 := congrArg List.reverse h1
    rw [List.reverse_reverse, List.reverse_append] at h2
    exact h2
  · intro c hc
    rw [List.mem_reverse] at hc
    exact List.mem_takeWhile_imp hc

lemma dropWhile_head_false {p : Char → Bool} {l : List Char} {c : Char} {t : List Char}
    (h : l.dropWhile p = c :: t) : p c = false := by
  induction l with
  | nil => simp at h
  | cons a l ih =>
    rw [List.dropWhile_cons] at h
    by_cases hp : p a = true
    · rw [if_pos hp] at h
      exact ih h
    · rw [if_neg hp] at h
      cases h
      simpa using hp

lemma dropWhile_jsTrim (l : List Char) : (jsTrim l).dropWhile wsChar = jsTrim l := by
  cases htl : jsTrim l with
  | nil => rfl
  | cons c t =>
    have hdecomp : l.dropWhile wsChar = jsTrim l ++ ((l.dropWhile wsChar).reverse.takeWhile wsChar).reverse := by
      have h1 : (l.dropWhile wsChar).reverse =
          (l.dropWhile wsChar).reverse.takeWhile wsChar ++ (l.dropWhile wsChar).reverse.dropWhile wsChar :=
        (List.takeWhile_append_dropWhile wsChar _).symm
      have h2 := congrArg List.reverse h1
      rw [List.reverse_reverse, List.reverse_append] at h2
      exact h2
    rw [htl] at hdecomp
    have hc : wsChar c = false := dropWhile_head_false (by rw [hdecomp]; rfl)
    rw [List.dropWhile_cons, if_neg (by simp [hc])]

lemma dropWhile_reverse_jsTrim (l : List Char) :
    (jsTrim l).reverse.dropWhile wsChar = (jsTrim l).reverse := by
  unfold jsTrim
  rw [List.reverse_reverse, List.dropWhile_idempotent]

lemma jsTrim_idem (l : List Char) : jsTrim (jsTrim l) = jsTrim l := by
  show (((jsTrim l).dropWhile wsChar).reverse.dropWhile wsChar).reverse = jsTrim l
  rw [dropWhile_jsTrim, dropWhile_reverse_jsTrim, List.reverse_reverse]

lemma head_false_of_dropWhile_self {p : Char → Bool} {c : Char} {t : List Char}
    (h : List.dropWhile p (c :: t) = c :: t) : p c = false := by
  by_cases hc : p c = true
  · rw [List.dropWhile_cons, if_pos hc] at h
    have hle := (List.dropWhile_sublist (l := t) p).length_le
    have hlen := congrArg List.length h
    simp only [List.length_cons] at hlen
    omega
  · simpa using hc

lemma jsTrim_head_not_ws {l : List Char} {c : Char} {t : List Char} (h : jsTrim l = c :: t) :
    wsChar c = false := by
  have h2 := dropWhile_jsTrim l
  rw [h] at h2
  exact head_false_of_dropWhile_self h2

lemma jsTrim_last_not_ws {l : List Char} {c : Char} {t : List Char}
    (h : (jsTrim l).reverse = c :: t) : wsChar c = false := by
  have h2 := dropWhile_reverse_jsTrim l
  rw [h] at h2
  exact head_false_of_dropWhile_self h2

/-! Transfer of pattern occurrences between a list and its
whitespace-padded extensions. -/

lemma getD_concat_right {x y : List Char} (j : Nat) (d : Char) :
    (x ++ y).getD (x.length + j) d = y.getD j d := by
  rw [List.getD_append_right _ _ _ _ (Nat.le_add_right _ _), Nat.add_sub_cancel_left]

lemma getD_triple_left {a core b : List Char} {j : Nat} (hj : j < core.length) (d : Char) :
    (a ++ core ++ b).getD (a.length + j) d = core.getD j d := by
  rw [List.append_assoc, getD_concat_right, List.getD_append _ _ _ _ hj]

lemma boundary_transfer {a core b : List Char} (ha : ∀ c ∈ a, wsChar c = true)
    (hb : ∀ c ∈ b, wsChar c = true) {j : Nat} (hj : j ≤ core.length) :
    boundaryAt (a ++ core ++ b) (a.length + j) = boundaryAt core j := by
  have hafter : isWordChar ((a ++ core ++ b).getD (a.length + j) ' ') =
      isWordChar (core.getD j ' ') := by
    rcases Nat.lt_or_ge j core.length with hlt | hge
    · rw [getD_triple_left hlt]
    · have hj' : j = core.length := le_antisymm hj hge
      subst hj'
      rw [List.getD_eq_default _ _ (le_refl core.length), List.append_assoc, getD_concat_right,
        List.getD_append_right _ _ _ _ le_rfl, Nat.sub_self]
      cases b with
      | nil => rfl
      | cons c bs =>
        show isWordChar c = isWordChar ' '
        rw [ws_not_word (hb c (by simp))]
        decide
  have hbefore : wordBeforeAt (a ++ core ++ b) (a.length + j) = wordBeforeAt core j := by
    unfold wordBeforeAt
    cases j with
    | zero =>
      simp only [Nat.lt_irrefl, decide_eq_false_iff_not, Nat.add_zero]
      cases a with
      | nil => simp
      | cons c as =>
        have hlt : (c :: as).length - 1 < (c :: as).length := by simp
        have hmem : ((c :: as) ++ core ++ b).getD ((c :: as).length - 1) ' ' ∈ (c :: as) := by
          rw [List.append_assoc, List.getD_append _ _ _ _ hlt]
          exact getD_mem hlt
        rw [ws_not_word (ha _ hmem)]
        simp
    | succ jj =>
      have h1 : a.length + (jj + 1) - 1 = a.length + jj := by omega
      have h2 : jj + 1 - 1 = jj := by omega
      rw [h1, h2, getD_triple_left (show jj < core.length by omega)]
      have h3 : decide (0 < a.length + (jj + 1)) = decide (0 < jj + 1) := by
        simp
      rw [h3]
  unfold boundaryAt wordAfterAt
  rw [hbefore, hafter]

lemma occursAt_le_length {pat core : List Char} {i : Nat} (hne : pat ≠ [])
    (h : occursAt pat core i = true) : i ≤ core.length := by
  by_contra hgt
  push_neg at hgt
  unfold occursAt at h
  rw [List.drop_eq_nil_of_le (le_of_lt hgt)] at h
  rcases isPrefixOf_iff_ex.mp h with ⟨t, ht⟩
  cases pat with
  | nil => exact hne rfl
  | cons c cs => simp at ht

lemma occursAt_extend {pat a core b : List Char} {i : Nat} (hne : pat ≠ [])
    (h : occursAt pat core i = true) : occursAt pat (a ++ core ++ b) (a.length + i) = true := by
  have hi : i ≤ core.length := occursAt_le_length hne h
  unfold occursAt at h ⊢
  rw [List.append_assoc, List.drop_append, List.drop_append_eq_append_drop,
    Nat.sub_eq_zero_of_le hi, List.drop_zero]
  exact isPrefixOf_append_ext h

lemma occursWordAt_extend {pat a core b : List Char} {i : Nat}
    (ha : ∀ c ∈ a, wsChar c = true) (hb : ∀ c ∈ b, wsChar c = true) (hne : pat ≠ [])
    (h : occursWordAt pat core i = true) :
    occursWordAt pat (a ++ core ++ b) (a.length + i) = true := by
  unfold occursWordAt at h ⊢
  simp only [Bool.and_eq_true] at h ⊢
  obtain ⟨⟨h1, h2⟩, h3⟩ := h
  have hi : i ≤ core.length := occursAt_le_length hne h1
  have hend : i + pat.length ≤ core.length := by
    have hlen := isPrefixOf_length_le h1
    rw [List.length_drop] at hlen
    omega
  refine ⟨⟨occursAt_extend hne h1, ?_⟩, ?_⟩
  · rw [boundary_transfer ha hb hi]
    exact h2
  · rw [show a.length + i + pat.length = a.length + (i + pat.length) by omega,
      boundary_transfer ha hb hend]
    exact h3

lemma hasWord_extend {pat a core b : List Char} (ha : ∀ c ∈ a, wsChar c = true)
    (hb : ∀ c ∈ b, wsChar c = true) (hne : pat ≠ [])
    (h : hasWord pat core = true) : hasWord pat (a ++ core ++ b) = true := by
  unfold hasWord at h ⊢
  rw [List.any_eq_true] at h ⊢
  obtain ⟨i, hmem, hocc⟩ := h
  refine ⟨a.length + i, List.mem_range.mpr ?_, occursWordAt_extend ha hb hne hocc⟩
  have := List.mem_range.mp hmem
  simp only [List.length_append]
  omega

lemma hasSub_extend {pat a core b : List Char} (hne : pat ≠ [])
    (h : hasSub pat core = true) : hasSub pat (a ++ core ++ b) = true := by
  unfold hasSub at h ⊢
  rw [List.any_eq_true] at h ⊢
  obtain ⟨i, hmem, hocc⟩ := h
  have hi : i ≤ core.length := occursAt_le_length hne hocc
  refine ⟨a.length + i, List.mem_range.mpr ?_, occursAt_extend hne hocc⟩
  simp only [List.length_append]
  omega

lemma occursWordAt_zero_restrict {pat core b : List Char}
    (hb : ∀ c ∈ b, wsChar c = true) (hpat : ∀ c ∈ pat, wsChar c = false) (hne : pat ≠ [])
    (h : occursWordAt pat (core ++ b) 0 = true) : occursWordAt pat core 0 = true := by
  unfold occursWordAt occursAt at h ⊢
  simp only [Bool.and_eq_true, List.drop_zero] at h ⊢
  obtain ⟨⟨h1, h2⟩, h3⟩ := h
  have h1' : pat.isPrefixOf core = true := isPrefixOf_of_append_ws hpat hb h1
  have hlen : pat.length ≤ core.length := isPrefixOf_length_le h1'
  have hbt0 := @boundary_transfer [] core b (by simp) hb 0 (Nat.zero_le _)
  have hbtp := @boundary_transfer [] core b (by simp) hb pat.length hlen
  simp only [List.nil_append, List.length_nil, Nat.zero_add] at hbt0 hbtp
  rw [Nat.zero_add] at h3 ⊢
  exact ⟨⟨h1', by rw [← hbt0]; exact h2⟩, by rw [← hbtp]; exact h3⟩

/-! Lemmas for the three parts of the isSafeSelect characterization. -/

lemma head_eq_of_cons_isPrefixOf {c d : Char} {cs ds : List Char}
    (h : (c :: cs).isPrefixOf (d :: ds) = true) : c = d := by
  have h2 : (c == d && cs.isPrefixOf ds) = true := h
  simp only [Bool.and_eq_true, beq_iff_eq] at h2
  exact h2.1

lemma headD_eq_of_isPrefixOf {pat l : List Char} (hne : pat ≠ [])
    (h : pat.isPrefixOf l = true) : l.headD ' ' = pat.headD ' ' := by
  cases pat with
  | nil => exact absurd rfl hne
  | cons c cs =>
    cases l with
    | nil =>
      rcases isPrefixOf_iff_ex.mp h with ⟨t, ht⟩
      simp at ht
    | cons d ds =>
      rw [List.headD_cons, List.headD_cons, head_eq_of_cons_isPrefixOf h]

lemma nil_of_ws_head {pat A X : List Char} (hpre : pat.isPrefixOf (A ++ X) = true)
    (hA : ∀ c ∈ A, wsChar c = true) (hne : pat ≠ [])
    (hw : wsChar (pat.headD ' ') = false) : A = [] := by
  cases A with
  | nil => rfl
  | cons c as =>
    exfalso
    have hcd : ((c :: as) ++ X).headD ' ' = pat.headD ' ' := headD_eq_of_isPrefixOf hne hpre
    simp only [List.cons_append, List.headD_cons] at hcd
    rw [← hcd, hA c (by simp)] at hw
    cases hw

lemma isSafeSelect_false_of_semicolon (s : String) (h : ';' ∈ s.data) :
    isSafeSelect s = false := by
  obtain ⟨a, b, hdecomp, ha, hb⟩ := trim_decomp s.data
  have hT : ';' ∈ jsTrim s.data := by
    rw [hdecomp] at h
    simp only [List.mem_append] at h
    rcases h with (h | h) | h
    · exact absurd (ha _ h) (by decide)
    · exact h
    · exact absurd (hb _ h) (by decide)
  have hcon : (jsTrim s.data).contains ';' = true := by
    simpa [List.contains] using hT
  show isSafeSelectL s.data = false
  unfold isSafeSelectL
  cases hstart : startKeywordOK (lower (jsTrim s.data)) with
  | false => simp [hstart]
  | true =>
    simp [hstart]
    intro hno
    exact absurd hT hno

lemma isSafeSelect_false_of_banned_head (s : String) (w : List Char)
    (hpre : w.isPrefixOf (lower s.data) = true) (hne : w ≠ [])
    (hws : wsChar (w.headD ' ') = false)
    (hs : (w.headD ' ') ≠ 's') (hw : (w.headD ' ') ≠ 'w') :
    isSafeSelect s = false := by
  obtain ⟨a, b, hdecomp, ha, hb⟩ := trim_decomp s.data
  have hlow : lower s.data = lower a ++ lower (jsTrim s.data) ++ lower b := by
    conv_lhs => rw [hdecomp]
    simp [lower, List.map_append]
  have hA : lower a = [] := by
    refine nil_of_ws_head (X := lower (jsTrim s.data) ++ lower b) ?_ (lower_all_ws ha) hne hws
    rw [← List.append_assoc, ← hlow]
    exact hpre
  rw [hA, List.nil_append] at hlow
  cases hTl : lower (jsTrim s.data) with
  | nil =>
    exfalso
    rw [hTl, List.nil_append] at hlow
    have hB : lower b = [] := by
      refine nil_of_ws_head (X := ([] : List Char)) ?_ (lower_all_ws hb) hne hws
      rw [List.append_nil, ← hlow]
      exact hpre
    rw [hB] at hlow
    rw [hlow] at hpre
    cases w with
    | nil => exact hne rfl
    | cons c cs => simp [List.isPrefixOf] at hpre
  | cons c0 ts =>
    rw [hTl] at hlow
    simp only [List.cons_append] at hlow
    rw [hlow] at hpre
    have hc0 : (c0 :: (ts ++ lower b)).headD ' ' = w.headD ' ' := headD_eq_of_isPrefixOf hne hpre
    rw [List.headD_cons] at hc0
    have hsel : occursWordAt (("select").data) (lower (jsTrim s.data)) 0 = false := by
      rw [hTl]
      apply Bool.eq_false_iff.mpr
      intro hocc
      unfold occursWordAt occursAt at hocc
      simp only [Bool.and_eq_true] at hocc
      have h1 := hocc.1.1
      rw [List.drop_zero] at h1
      have h2 := headD_eq_of_isPrefixOf (by decide) h1
      rw [List.headD_cons] at h2
      have h3 : (("select").data).headD ' ' = 's' := by decide
      rw [h3] at h2
      exact hs (by rw [← hc0, h2])
    have hwith : occursWordAt (("with").data) (lower (jsTrim s.data)) 0 = false := by
      rw [hTl]
      apply Bool.eq_false_iff.mpr
      intro hocc
      unfold occursWordAt occursAt at hocc
      simp only [Bool.and_eq_true] at hocc
      have h1 := hocc.1.1
      rw [List.drop_zero] at h1
      have h2 := headD_eq_of_isPrefixOf (by decide) h1
      rw [List.headD_cons] at h2
      have h3 : (("with").data).headD ' ' = 'w' := by decide
      rw [h3] at h2
      exact hw (by rw [← hc0, h2])
    show isSafeSelectL s.data = false
    unfold isSafeSelectL startKeywordOK
    simp [hsel, hwith]

lemma isSafeSelect_true_of_checks (s : String)
    (hstart : startKeywordOK (lower s.data) = true)
    (hsemi : ';' ∉ s.data)
    (hban : ∀ w ∈ bannedKeywords, hasWord w (lower s.data) = false)
    (hsys1 : hasSub (("pg_catalog.").data) (lower s.data) = false)
    (hsys2 : hasSub (("information_schema.").data) (lower s.data) = false) :
    isSafeSelect s = true := by
  obtain ⟨a, b, hdecomp, ha, hb⟩ := trim_decomp s.data
  have hlow : lower s.data = lower a ++ lower (jsTrim s.data) ++ lower b := by
    conv_lhs => rw [hdecomp]
    simp [lower, List.map_append]
  have hA : lower a = [] := by
    unfold startKeywordOK at hstart
    simp only [Bool.or_eq_true] at hstart
    rcases hstart with hocc | hocc
    · unfold occursWordAt occursAt at hocc
      simp only [Bool.and_eq_true] at hocc
      have h1 := hocc.1.1
      rw [List.drop_zero, hlow, List.append_assoc] at h1
      exact nil_of_ws_head h1 (lower_all_ws ha) (by decide) (by decide)
    · unfold occursWordAt occursAt at hocc
      simp only [Bool.and_eq_true] at hocc
      have h1 := hocc.1.1
      rw [List.drop_zero, hlow, List.append_assoc] at h1
      exact nil_of_ws_head h1 (lower_all_ws ha) (by decide) (by decide)
  rw [hA, List.nil_append] at hlow
  have hbAll : ∀ c ∈ lower b, wsChar c = true := lower_all_ws hb
  have hstartT : startKeywordOK (lower (jsTrim s.data)) = true := by
    unfold startKeywordOK at hstart ⊢
    simp only [Bool.or_eq_true] at hstart ⊢
    rcases hstart with hocc | hocc
    · left
      apply occursWordAt_zero_restrict hbAll (by decide) (by decide)
      rw [← hlow]
      exact hocc
    · right
      apply occursWordAt_zero_restrict hbAll (by decide) (by decide)
      rw [← hlow]
      exact hocc
  have hsemiT : ';' ∉ jsTrim s.data := by
    intro hmem
    apply hsemi
    rw [hdecomp]
    exact List.mem_append.mpr (Or.inl (List.mem_append.mpr (Or.inr hmem)))
  have hbanT : (bannedKeywords.any fun w => hasWord w (lower (jsTrim s.data))) = false := by
    apply Bool.eq_false_iff.mpr
    intro hany
    rcases List.any_eq_true.mp hany with ⟨w, hwmem, hword⟩
    have hne : w ≠ [] := by
      have hall : ∀ w ∈ bannedKeywords, w ≠ [] := by decide
      exact hall w hwmem
    have hext := hasWord_extend (a := []) (b := lower b) (by simp) hbAll hne hword
    rw [List.nil_append, ← hlow] at hext
    rw [hban w hwmem] at hext
    cases hext
  have hsysT : hasSysSchema (lower (jsTrim s.data)) = false := by
    apply Bool.eq_false_iff.mpr
    intro hany
    rcases List.any_eq_true.mp hany with ⟨i, hi, hatt⟩
    have hi2 := List.mem_range.mp hi
    unfold sysSchemaAt at hatt
    simp only [Bool.and_eq_true, Bool.or_eq_true] at hatt
    have hlen2 : (lower s.data).length =
        (lower (jsTrim s.data)).length + (lower b).length := by
      rw [hlow]
      simp
    rcases hatt.2 with hocc | hocc
    · have hle := occursAt_le_length (by decide) hocc
      have hext := occursAt_extend (a := []) (b := lower b) (by decide) hocc
      simp only [List.nil_append, List.length_nil, Nat.zero_add] at hext
      rw [← hlow] at hext
      have hfull : hasSub (("pg_catalog.").data) (lower s.data) = true := by
        unfold hasSub
        exact List.any_eq_true.mpr ⟨i, List.mem_range.mpr (by omega), hext⟩
      rw [hsys1] at hfull
      cases hfull
    · have hle := occursAt_le_length (by decide) hocc
      have hext := occursAt_extend (a := []) (b := lower b) (by decide) hocc
      simp only [List.nil_append, List.length_nil, Nat.zero_add] at hext
      rw [← hlow] at hext
      have hfull : hasSub (("information_schema.").data) (lower s.data) = true := by
        unfold hasSub
        exact List.any_eq_true.mpr ⟨i, List.mem_range.mpr (by omega), hext⟩
      rw [hsys2] at hfull
      cases hfull
  show isSafeSelectL s.data = true
  unfold isSafeSelectL
  simp [hstartT, hbanT, hsysT]
  exact hsemiT

/-- Claim C1: characterization of isSafeSelect.  Any statement containing a
semicolon is rejected; any statement beginning with a banned keyword
(case-insensitively) is rejected; and any statement starting with the
SELECT or WITH keyword that contains no semicolon, no whole-word banned
keyword and no system-schema reference is accepted. -/
theorem isSafeSelect_characterization :
    (∀ s : String, ';' ∈ s.data → isSafeSelect s = false) ∧
    (∀ s : String, ∀ w ∈ bannedKeywords, w.isPrefixOf (lower s.data) = true →
      isSafeSelect s = false) ∧
    (∀ s : String, startKeywordOK (lower s.data) = true → ';' ∉ s.data →
      (∀ w ∈ bannedKeywords, hasWord w (lower s.data) = false) →
      hasSub (("pg_catalog.").data) (lower s.data) = false →
      hasSub (("information_schema.").data) (lower s.data) = false →
      isSafeSelect s = true) := by
  refine ⟨isSafeSelect_false_of_semicolon, ?_, isSafeSelect_true_of_checks⟩
  intro s w hw hpre
  have hside : ∀ w ∈ bannedKeywords, w ≠ [] ∧ wsChar (w.headD ' ') = false ∧
      w.headD ' ' ≠ 's' ∧ w.headD ' ' ≠ 'w' := by decide
  obtain ⟨h1, h2, h3, h4⟩ := hside w hw
  exact isSafeSelect_false_of_banned_head s w hpre h1 h2 h3 h4

/-- Witness for claim C1 at concrete statements: a stacked statement, a
DELETE statement, and a plain safe SELECT. -/
theorem isSafeSelect_characterization_witness :
    isSafeSelect "SELECT 1; DROP TABLE x" = false ∧
    isSafeSelect "DELETE FROM public.orders" = false ∧
    isSafeSelect "SELECT * FROM public.orders" = true := by
  refine ⟨?_, ?_, ?_⟩
  · exact isSafeSelect_characterization.1 "SELECT 1; DROP TABLE x" (by decide)
  · exact isSafeSelect_characterization.2.1 "DELETE FROM public.orders" (("delete").data)
      (by decide) (by decide)
  · exact isSafeSelect_characterization.2.2 "SELECT * FROM public.orders" (by decide)
      (by decide) (by decide) (by decide) (by decide)

/-- Claim C2: no unguarded execution.  A generator output failing
isSafeSelect or carrying a random order is rejected with a client error
(status 400) and nothing reaches runSelect; conversely any statement the
pipeline does execute passed isSafeSelect, was not random-ordered, and is
exactly the ensureLimit normalization of the generator output. -/
theorem query_pipeline_guard_gate :
    ∀ (maxLimit : Nat) (rawSql : String),
      ((isSafeSelect rawSql = false ∨ hasRandomOrder rawSql = true) →
        guardPhase maxLimit rawSql = .error 400) ∧
      (∀ s : String, guardPhase maxLimit rawSql = .ok s →
        isSafeSelect rawSql = true ∧ hasRandomOrder rawSql = false ∧
          s = ensureLimit rawSql (Nat.min maxLimit 1000)) := by
  intro maxLimit rawSql
  constructor
  · intro h
    unfold guardPhase
    rcases h with h | h
    · simp [h]
    · cases hsafe : isSafeSelect rawSql with
      | false => simp [hsafe]
      | true => simp [hsafe, h]
  · intro s hok
    unfold guardPhase at hok
    cases hsafe : isSafeSelect rawSql with
    | false =>
      rw [hsafe] at hok
      simp at hok
    | true =>
      cases hrand : hasRandomOrder rawSql with
      | true =>
        rw [hsafe, hrand] at hok
        simp at hok
      | false =>
        rw [hsafe, hrand] at hok
        simp only [Bool.not_true, Bool.false_eq_true, if_false, Bool.false_eq_true] at hok
        refine ⟨rfl, rfl, ?_⟩
        cases hlim : limitValue (ensureLimit rawSql (Nat.min maxLimit 1000)) with
        | none =>
          rw [hlim] at hok
          simp at hok
          exact hok.symm
        | some l =>
          rw [hlim] at hok
          have hok2 : (if l ≠ 0 ∧ maxLimit < l then (Except.error 400 : Except Nat String)
              else Except.ok (ensureLimit rawSql (Nat.min maxLimit 1000))) = Except.ok s := hok
          by_cases hc : l ≠ 0 ∧ maxLimit < l
          · rw [if_pos hc] at hok2
            simp at hok2
          · rw [if_neg hc] at hok2
            simp at hok2
            exact hok2.symm

/-- Witness for claim C2: the DELETE statement of the specification is
rejected with status 400, and a concrete accepted statement is executed
exactly as its ensureLimit normalization after passing both guard checks. -/
theorem query_pipeline_guard_gate_witness :
    guardPhase 1000 "DELETE FROM public.orders" = .error 400 ∧
    (isSafeSelect "SELECT 1" = true ∧ hasRandomOrder "SELECT 1" = false ∧
      "SELECT 1 LIMIT 1000" = ensureLimit "SELECT 1" (Nat.min 1000 1000)) := by
  constructor
  · exact (query_pipeline_guard_gate 1000 "DELETE FROM public.orders").1 (Or.inl (by decide))
  · exact (query_pipeline_guard_gate 1000 "SELECT 1").2 "SELECT 1 LIMIT 1000" (by rfl)

/-- Claim C3: limit enforcement.  A candidate whose declared LIMIT value
(extracted by limitValue after ensureLimit) exceeds the configured maximum
is rejected with a client error before execution; and for the generator
output SELECT * FROM public.orders with maximum 1000, the executed
statement is exactly SELECT * FROM public.orders LIMIT 1000 and the
response sql field carries that exact text. -/
theorem limit_enforcement :
    (∀ (maxLimit : Nat) (rawSql : String) (l : Nat),
      limitValue (ensureLimit rawSql (Nat.min maxLimit 1000)) = some l → maxLimit < l →
      guardPhase maxLimit rawSql = .error 400) ∧
    guardPhase 1000 "SELECT * FROM public.orders" =
      .ok "SELECT * FROM public.orders LIMIT 1000" ∧
    (∀ (budget fuel : Nat) (rows : List Nat) (cnt : Nat) (resp : QueryResp),
      queryPipeline 1000 budget fuel "SELECT * FROM public.orders" rows cnt = .ok (some resp) →
      resp.sql = "SELECT * FROM public.orders LIMIT 1000") := by
  refine ⟨?_, by rfl, ?_⟩
  · intro maxLimit rawSql l hlim hgt
    unfold guardPhase
    cases hsafe : isSafeSelect rawSql with
    | false => simp [hsafe]
    | true =>
      cases hrand : hasRandomOrder rawSql with
      | true => simp [hsafe, hrand]
      | false =>
        simp only [hsafe, hrand, Bool.not_true, Bool.false_eq_true, if_false]
        rw [hlim]
        show (if l ≠ 0 ∧ maxLimit < l then (Except.error 400 : Except Nat String)
          else Except.ok (ensureLimit rawSql (Nat.min maxLimit 1000))) = Except.error 400
        rw [if_pos ⟨by omega, hgt⟩]
  · intro budget fuel rows cnt resp h
    unfold queryPipeline at h
    have h2 : Except.ok ((shapeResponse budget fuel rows cnt).map
        (fun r => QueryResp.mk r.1 r.2.1 "SELECT * FROM public.orders LIMIT 1000" r.2.2)) =
        (Except.ok (some resp) : Except Nat (Option QueryResp)) := h
    simp only [Except.ok.injEq] at h2
    cases hsr : shapeResponse budget fuel rows cnt with
    | none =>
      rw [hsr] at h2
      exact absurd h2 (by simp)
    | some r =>
      rw [hsr] at h2
      have h3 : QueryResp.mk r.1 r.2.1 "SELECT * FROM public.orders LIMIT 1000" r.2.2 = resp :=
        Option.some.inj h2
      rw [← h3]

/-- Witness for claim C3: a declared LIMIT of 2000 against a maximum of
1000 is rejected with status 400, and the concrete pipeline run carries
the exact SQL text in its response. -/
theorem limit_enforcement_witness :
    guardPhase 1000 "SELECT 1 LIMIT 2000" = .error 400 ∧
    (QueryResp.mk [3] 1 "SELECT * FROM public.orders LIMIT 1000" false).sql =
      "SELECT * FROM public.orders LIMIT 1000" := by
  constructor
  · exact limit_enforcement.1 1000 "SELECT 1 LIMIT 2000" 2000 (by rfl) (by decide)
  · exact limit_enforcement.2.2 1000000 5 [3] 1
      (QueryResp.mk [3] 1 "SELECT * FROM public.orders LIMIT 1000" false) (by rfl)

/-- Claim C4 (against the code): the shrink loop does not terminate once a
single row over budget remains.  With budget 10 and one fetched row whose
serialization is 22 bytes, every iteration recomputes n = max 1 (floor
(1 * 0.7)) = 1 and re-serializes the same one-row slice, so the loop guard
n > 0 and size > budget never becomes false: for every iteration bound the
loop has not exited, and the response shaping never produces a result. -/
theorem truncation_loop_diverges_on_oversized_single_row :
    serSize [20] = 22 ∧ 10 < serSize [20] ∧
    (∀ fuel : Nat, shrinkLoop 10 fuel 1 [20] = none) ∧
    (∀ fuel : Nat, shapeResponse 10 fuel [20] 1 = none) := by
  have hloop : ∀ fuel : Nat, shrinkLoop 10 fuel 1 [20] = none := by
    intro fuel
    induction fuel with
    | zero => rfl
    | succ g ih =>
      unfold shrinkLoop
      rw [if_pos (by decide)]
      exact ih
  refine ⟨rfl, by decide, hloop, ?_⟩
  intro fuel
  unfold shapeResponse
  rw [if_pos (by decide : (10 : Nat) < serSize [20])]
  rw [show ([20] : List Nat).length = 1 from rfl, hloop fuel]

/-- Claim C5 counterexample: with capacity one, inserting a second distinct
connection string evicts the pool of the first (it is gone from the
registry), yet the evicted pool (id 0) is never closed: the source deletes
the Map entry without releasing the pool. -/
theorem getPool_evicted_pool_not_closed :
    (getPool 1 "b" (getPool 1 "a" ⟨[], 0, []⟩).2).2.entries = [("b", 1)] ∧
    ¬ 0 ∈ (getPool 1 "b" (getPool 1 "a" ⟨[], 0, []⟩).2).2.closed := by
  constructor
  · decide
  · decide

lemma any_eq_false_of_lookupA_none {k : String} {m : List (String × Nat)}
    (h : lookupA k m = none) : (m.any fun p => p.1 == k) = false := by
  unfold lookupA at h
  have hf : m.find? (fun p => p.1 == k) = none := by
    cases hcase : m.find? (fun p => p.1 == k) with
    | none => rfl
    | some x =>
      rw [hcase] at h
      simp at h
  apply Bool.eq_false_iff.mpr
  intro hany
  rcases List.any_eq_true.mp hany with ⟨x, hx, hpx⟩
  exact List.find?_eq_none.mp hf x hx hpx

/-- Claim C5 as amended: looking up an existing connection string returns
its cached pool and promotes the entry to most-recently-used position (the
end of the insertion-ordered registry); inserting a new connection string
into a full registry evicts exactly the least-recently-used entry (the
head); but the evicted pool is never closed - getPool leaves the closed
set unchanged on every path. -/
theorem getPool_lru_behavior :
    ∀ (cap : Nat) (k : String) (st : RegState),
      (∀ v, lookupA k st.entries = some v →
        getPool cap k st = (v, { st with entries := eraseKey k st.entries ++ [(k, v)] })) ∧
      (lookupA k st.entries = none → 0 < cap → st.entries.length = cap →
        getPool cap k st = (st.nextId,
          { entries := st.entries.tail ++ [(k, st.nextId)], nextId := st.nextId + 1,
            closed := st.closed })) ∧
      (getPool cap k st).2.closed = st.closed := by
  intro cap k st
  refine ⟨?_, ?_, ?_⟩
  · intro v hv
    unfold getPool lruGet
    rw [hv]
  · intro hnone hcap hlen
    have hany := any_eq_false_of_lookupA_none hnone
    unfold getPool lruGet lruSet
    rw [hnone, hany]
    have hlen2 : cap < (st.entries ++ [(k, st.nextId)]).length := by
      simp [hlen]
    show (st.nextId, RegState.mk
        (if cap < (st.entries ++ [(k, st.nextId)]).length
          then (st.entries ++ [(k, st.nextId)]).tail
          else st.entries ++ [(k, st.nextId)])
        (st.nextId + 1) st.closed) =
      (st.nextId, RegState.mk (st.entries.tail ++ [(k, st.nextId)]) (st.nextId + 1) st.closed)
    rw [if_pos hlen2]
    have htail : (st.entries ++ [(k, st.nextId)]).tail = st.entries.tail ++ [(k, st.nextId)] := by
      cases hent : st.entries with
      | nil =>
        rw [hent] at hlen
        simp at hlen
        omega
      | cons e es => simp
    rw [htail]
  · unfold getPool lruGet
    cases hcase : lookupA k st.entries with
    | none => rfl
    | some v => rfl

/-- Witness for claim C5 at a concrete registry: a hit on a that promotes
it past x, an eviction of the least-recently-used a by a new key c, and
the unchanged (empty) closed set. -/
theorem getPool_lru_behavior_witness :
    getPool 2 "a" ⟨[("a", 7), ("x", 5)], 9, []⟩ = (7, ⟨[("x", 5), ("a", 7)], 9, []⟩) ∧
    getPool 2 "c" ⟨[("a", 7), ("x", 5)], 9, []⟩ = (9, ⟨[("x", 5), ("c", 9)], 10, []⟩) ∧
    (getPool 2 "c" ⟨[("a", 7), ("x", 5)], 9, []⟩).2.closed = [] := by
  refine ⟨?_, ?_, ?_⟩
  · have h := (getPool_lru_behavior 2 "a" ⟨[("a", 7), ("x", 5)], 9, []⟩).1 7 (by decide)
    rw [h]
    decide
  · have h := (getPool_lru_behavior 2 "c" ⟨[("a", 7), ("x", 5)], 9, []⟩).2.1
      (by decide) (by decide) (by decide)
    rw [h]
    decide
  · exact (getPool_lru_behavior 2 "c" ⟨[("a", 7), ("x", 5)], 9, []⟩).2.2

/-- Claim C6: card cache TTL freshness.  A cache entry whose age is within
the TTL is returned unchanged with no introspection and the entry kept; a
missing or expired entry triggers an introspection and is replaced by the
fresh (timestamp, cards) pair before the cards are returned; and on every
path the cards returned are exactly those of the stored entry, whose age
is within the TTL - an entry older than the TTL is never returned. -/
theorem cards_cache_ttl :
    ∀ {α : Type} (ttl : Nat) (now ts : Int) (cards fresh : α) (entry : Option (Int × α)),
      (now - ts ≤ (ttl : Int) * 1000 →
        getCardsStep ttl now (some (ts, cards)) fresh = (cards, (ts, cards), false)) ∧
      ((ttl : Int) * 1000 < now - ts →
        getCardsStep ttl now (some (ts, cards)) fresh = (fresh, (now, fresh), true)) ∧
      getCardsStep ttl now none fresh = (fresh, (now, fresh), true) ∧
      ((getCardsStep ttl now entry fresh).1 = (getCardsStep ttl now entry fresh).2.1.2 ∧
        now - (getCardsStep ttl now entry fresh).2.1.1 ≤ (ttl : Int) * 1000) := by
  intro α ttl now ts cards fresh entry
  have hred : ∀ (ts2 : Int) (cards2 : α), getCardsStep ttl now (some (ts2, cards2)) fresh =
      if (ttl : Int) * 1000 < now - ts2 then (fresh, (now, fresh), true)
      else (cards2, (ts2, cards2), false) := fun _ _ => rfl
  refine ⟨?_, ?_, rfl, ?_⟩
  · intro h
    rw [hred, if_neg (by omega)]
  · intro h
    rw [hred, if_pos h]
  · cases entry with
    | none =>
      refine ⟨rfl, ?_⟩
      show now - now ≤ (ttl : Int) * 1000
      omega
    | some e =>
      obtain ⟨ets, ecards⟩ := e
      by_cases h : (ttl : Int) * 1000 < now - ets
      · rw [hred, if_pos h]
        refine ⟨rfl, ?_⟩
        show now - now ≤ (ttl : Int) * 1000
        omega
      · rw [hred, if_neg h]
        refine ⟨rfl, ?_⟩
        show now - ets ≤ (ttl : Int) * 1000
        omega

/-- Witness for claim C6 at concrete values: a fresh entry within the TTL
is served from the cache, an expired entry is rebuilt with the new
timestamp, and a missing entry triggers the introspection. -/
theorem cards_cache_ttl_witness :
    getCardsStep 900 1000 (some (500, [1, 2])) [9] = ([1, 2], (500, [1, 2]), false) ∧
    getCardsStep 900 2000000 (some (500, [1, 2])) [9] = ([9], (2000000, [9]), true) ∧
    getCardsStep 900 1000 (none : Option (Int × List Nat)) [9] = ([9], (1000, [9]), true) := by
  refine ⟨?_, ?_, ?_⟩
  · exact (cards_cache_ttl 900 1000 500 [1, 2] [9] none).1 (by decide)
  · exact (cards_cache_ttl 900 2000000 500 [1, 2] [9] none).2.1 (by decide)
  · exact (cards_cache_ttl 900 1000 500 [1, 2] [9] none).2.2.1

/-! Lemmas about decimal notation and about ensureLimit. -/

lemma digitOf_digit (r : Nat) : digitChar (digitOf r) = true := by
  unfold digitOf
  rcases Nat.lt_or_ge r 10 with h | h
  · interval_cases r <;> decide
  · rw [List.getD_eq_default _ _ (by simpa using h)]
    decide

lemma natToCharsAux_digits : ∀ (fuel n : Nat) (acc : List Char),
    (∀ c ∈ acc, digitChar c = true) → ∀ c ∈ natToCharsAux fuel n acc, digitChar c = true := by
  intro fuel
  induction fuel with
  | zero => exact fun n acc hacc c hc => hacc c hc
  | succ f ih =>
    intro n acc hacc c hc
    unfold natToCharsAux at hc
    by_cases hn : n = 0
    · rw [if_pos hn] at hc
      exact hacc c hc
    · rw [if_neg hn] at hc
      refine ih _ _ ?_ c hc
      intro d hd
      rcases List.mem_cons.mp hd with rfl | hd2
      · exact digitOf_digit _
      · exact hacc d hd2

lemma natToChars_digits (n : Nat) : ∀ c ∈ natToChars n, digitChar c = true := by
  unfold natToChars
  by_cases hn : n = 0
  · rw [if_pos hn]
    intro c hc
    rcases List.mem_singleton.mp hc with rfl
    decide
  · rw [if_neg hn]
    exact natToCharsAux_digits n n [] (by simp)

lemma natToCharsAux_ext : ∀ (fuel n : Nat) (acc : List Char),
    ∃ ds, natToCharsAux fuel n acc = ds ++ acc := by
  intro fuel
  induction fuel with
  | zero => exact fun n acc => ⟨[], rfl⟩
  | succ f ih =>
    intro n acc
    unfold natToCharsAux
    by_cases hn : n = 0
    · rw [if_pos hn]
      exact ⟨[], rfl⟩
    · rw [if_neg hn]
      obtain ⟨ds, hds⟩ := ih (n / 10) (digitOf (n % 10) :: acc)
      exact ⟨ds ++ [digitOf (n % 10)], by rw [hds]; simp⟩

lemma natToChars_ne_nil (n : Nat) : natToChars n ≠ [] := by
  unfold natToChars
  by_cases hn : n = 0
  · rw [if_pos hn]
    simp
  · rw [if_neg hn]
    cases n with
    | zero => exact absurd rfl hn
    | succ m =>
      show natToCharsAux (m + 1) (m + 1) [] ≠ []
      unfold natToCharsAux
      rw [if_neg hn]
      obtain ⟨ds, hds⟩ := natToCharsAux_ext m ((m + 1) / 10) [digitOf ((m + 1) % 10)]
      rw [hds]
      simp

lemma digit_not_ws {c : Char} (h : digitChar c = true) : wsChar c = false := by
  simp only [digitChar, decide_eq_true_eq] at h
  simp only [wsChar, decide_eq_false_iff_not]
  omega

lemma jsTrim_eq_self {x : List Char} (hh : wsChar (x.headD ' ') = false)
    (hl : wsChar (x.reverse.headD ' ') = false) : jsTrim x = x := by
  unfold jsTrim
  have h1 : x.dropWhile wsChar = x := by
    cases x with
    | nil => rfl
    | cons c t =>
      rw [List.headD_cons] at hh
      rw [List.dropWhile_cons, if_neg (by simp [hh])]
  rw [h1]
  have h2 : x.reverse.dropWhile wsChar = x.reverse := by
    cases hx2 : x.reverse with
    | nil => rfl
    | cons c t =>
      rw [hx2, List.headD_cons] at hl
      rw [List.dropWhile_cons, if_neg (by simp [hl])]
  rw [h2, List.reverse_reverse]

lemma ensureLimitL_pos {l : List Char} {maxL : Nat}
    (h : hasWord (("limit").data) (lower (jsTrim l)) = true) :
    ensureLimitL l maxL = jsTrim l := by
  have hred : ensureLimitL l maxL =
      if hasWord (("limit").data) (lower (jsTrim l)) then jsTrim l
      else jsTrim l ++ (" LIMIT ").data ++ natToChars maxL := rfl
  rw [hred, if_pos h]

lemma ensureLimitL_neg {l : List Char} {maxL : Nat}
    (h : hasWord (("limit").data) (lower (jsTrim l)) = false) :
    ensureLimitL l maxL = jsTrim l ++ (" LIMIT ").data ++ natToChars maxL := by
  have hred : ensureLimitL l maxL =
      if hasWord (("limit").data) (lower (jsTrim l)) then jsTrim l
      else jsTrim l ++ (" LIMIT ").data ++ natToChars maxL := rfl
  rw [hred, if_neg (by simp [h])]

lemma getD_concat_self {x y : List Char} (d : Char) : (x ++ y).getD x.length d = y.getD 0 d := by
  have h := getD_concat_right (x := x) (y := y) 0 d
  simpa using h

lemma boundary_shift {X Y : List Char} {p : Nat} (hp : 0 < p) :
    boundaryAt (X ++ Y) (X.length + p) = boundaryAt Y p := by
  unfold boundaryAt wordBeforeAt wordAfterAt
  obtain ⟨q, rfl⟩ : ∃ q, p = q + 1 := ⟨p - 1, by omega⟩
  rw [show X.length + (q + 1) - 1 = X.length + q from by omega]
  rw [getD_concat_right, getD_concat_right]
  rw [show q + 1 - 1 = q from by omega]
  have hdec : decide (0 < X.length + (q + 1)) = decide (0 < q + 1) := by simp
  rw [hdec]

lemma occursWordAt_shift {pat X Y : List Char} {i : Nat} (hi : 0 < i)
    (h : occursWordAt pat Y i = true) : occursWordAt pat (X ++ Y) (X.length + i) = true := by
  unfold occursWordAt occursAt at h ⊢
  simp only [Bool.and_eq_true] at h ⊢
  obtain ⟨⟨h1, h2⟩, h3⟩ := h
  refine ⟨⟨?_, ?_⟩, ?_⟩
  · rw [List.drop_append]
    exact h1
  · rw [boundary_shift hi]
    exact h2
  · rw [show X.length + i + pat.length = X.length + (i + pat.length) from by omega,
      boundary_shift (by omega)]
    exact h3

lemma hasWord_limit_of_append (T D : List Char) :
    hasWord (("limit").data) (lower (T ++ (" LIMIT ").data ++ D)) = true := by
  have hlow : lower (T ++ (" LIMIT ").data ++ D) =
      lower T ++ ((" limit ").data ++ lower D) := by
    unfold lower
    rw [List.append_assoc, List.map_append, List.map_append]
    congr 2
  have hY : occursWordAt (("limit").data) ((" limit ").data ++ lower D) 1 = true := by
    unfold occursWordAt occursAt
    simp only [Bool.and_eq_true]
    refine ⟨⟨?_, ?_⟩, ?_⟩
    · have hdrop : List.drop 1 ((" limit ").data ++ lower D) = ("limit ").data ++ lower D := rfl
      rw [hdrop]
      exact isPrefixOf_append_ext (by decide)
    · unfold boundaryAt wordBeforeAt wordAfterAt
      have g0 : ((" limit ").data ++ lower D).getD (1 - 1) ' ' = ' ' := by
        rw [List.getD_append _ _ _ _ (by decide)]
        decide
      have g1 : ((" limit ").data ++ lower D).getD 1 ' ' = 'l' := by
        rw [List.getD_append _ _ _ _ (by decide)]
        decide
      rw [g0, g1]
      decide
    · unfold boundaryAt wordBeforeAt wordAfterAt
      have g5 : ((" limit ").data ++ lower D).getD (1 + (("limit").data).length - 1) ' ' = 't' := by
        rw [show 1 + (("limit").data).length - 1 = 5 from by decide]
        rw [List.getD_append _ _ _ _ (by decide)]
        decide
      have g6 : ((" limit ").data ++ lower D).getD (1 + (("limit").data).length) ' ' = ' ' := by
        rw [show 1 + (("limit").data).length = 6 from by decide]
        rw [List.getD_append _ _ _ _ (by decide)]
        decide
      rw [g5, g6]
      decide
  rw [hlow]
  unfold hasWord
  apply List.any_eq_true.mpr
  refine ⟨(lower T).length + 1, List.mem_range.mpr ?_, occursWordAt_shift (by omega) hY⟩
  have hlen7 : ((" limit ").data).length = 7 := by decide
  simp only [List.length_append, hlen7]
  omega

/-- Claim C9 counterexample: ensureLimit does not return a statement with a
LIMIT keyword unchanged - it returns it trimmed - and the idempotence
equation fails on a whitespace-only statement, whose first application
yields a leading space that the second application strips. -/
theorem ensureLimit_unchanged_counterexample :
    ensureLimit " SELECT * FROM a LIMIT 5" 100 ≠ " SELECT * FROM a LIMIT 5" ∧
    ensureLimit (ensureLimit "" 100) 100 ≠ ensureLimit "" 100 := by
  constructor
  · decide
  · decide

/-- Claim C9 as amended: on a statement whose trimmed form contains the
limit keyword, ensureLimit returns the trimmed statement (unchanged exactly
when the statement carries no surrounding whitespace); otherwise it appends
a LIMIT clause to the trimmed statement; it is idempotent on every
statement whose trimmed form is nonempty; and the two concrete equations
of the specification hold. -/
theorem ensureLimit_behavior :
    (∀ (s : String) (maxL : Nat), hasWord (("limit").data) (lower (jsTrim s.data)) = true →
      ensureLimit s maxL = ⟨jsTrim s.data⟩) ∧
    (∀ (s : String) (maxL : Nat), hasWord (("limit").data) (lower (jsTrim s.data)) = false →
      ensureLimit s maxL = ⟨jsTrim s.data ++ (" LIMIT ").data ++ natToChars maxL⟩) ∧
    (∀ (s : String) (maxL : Nat), jsTrim s.data ≠ [] →
      ensureLimit (ensureLimit s maxL) maxL = ensureLimit s maxL) ∧
    ensureLimit "SELECT * FROM a" 100 = "SELECT * FROM a LIMIT 100" ∧
    ensureLimit "SELECT * FROM a LIMIT 5" 100 = "SELECT * FROM a LIMIT 5" := by
  refine ⟨?_, ?_, ?_, by decide, by decide⟩
  · intro s maxL h
    show (⟨ensureLimitL s.data maxL⟩ : String) = _
    rw [ensureLimitL_pos h]
  · intro s maxL h
    show (⟨ensureLimitL s.data maxL⟩ : String) = _
    rw [ensureLimitL_neg h]
  · intro s maxL hs
    by_cases h : hasWord (("limit").data) (lower (jsTrim s.data)) = true
    · have he1 : ensureLimit s maxL = ⟨jsTrim s.data⟩ := by
        show (⟨ensureLimitL s.data maxL⟩ : String) = _
        rw [ensureLimitL_pos h]
      rw [he1]
      show (⟨ensureLimitL (jsTrim s.data) maxL⟩ : String) = _
      rw [ensureLimitL_pos (by rw [jsTrim_idem]; exact h), jsTrim_idem]
    · have hf : hasWord (("limit").data) (lower (jsTrim s.data)) = false :=
        Bool.eq_false_iff.mpr h
      have he1 : ensureLimit s maxL = ⟨jsTrim s.data ++ (" LIMIT ").data ++ natToChars maxL⟩ := by
        show (⟨ensureLimitL s.data maxL⟩ : String) = _
        rw [ensureLimitL_neg hf]
      rw [he1]
      have hTe : jsTrim (jsTrim s.data ++ (" LIMIT ").data ++ natToChars maxL) =
          jsTrim s.data ++ (" LIMIT ").data ++ natToChars maxL := by
        apply jsTrim_eq_self
        · cases hT : jsTrim s.data with
          | nil => exact absurd hT hs
          | cons c t =>
            have hc := jsTrim_head_not_ws hT
            simp [List.cons_append, List.headD_cons, hc]
        · have hrev : (jsTrim s.data ++ (" LIMIT ").data ++ natToChars maxL).reverse =
              (natToChars maxL).reverse ++
                (((" LIMIT ").data).reverse ++ (jsTrim s.data).reverse) := by
            simp [List.reverse_append]
          rw [hrev]
          cases hD : (natToChars maxL).reverse with
          | nil => exact absurd (List.reverse_eq_nil_iff.mp hD) (natToChars_ne_nil maxL)
          | cons d ds =>
            have hd : d ∈ natToChars maxL := by
              have hmem : d ∈ (natToChars maxL).reverse := by
                rw [hD]
                simp
              rwa [List.mem_reverse] at hmem
            simp [List.cons_append, List.headD_cons, digit_not_ws (natToChars_digits maxL d hd)]
      have hw2 : hasWord (("limit").data)
          (lower (jsTrim (jsTrim s.data ++ (" LIMIT ").data ++ natToChars maxL))) = true := by
        rw [hTe]
        exact hasWord_limit_of_append _ _
      show (⟨ensureLimitL (jsTrim s.data ++ (" LIMIT ").data ++ natToChars maxL) maxL⟩ :
        String) = _
      rw [ensureLimitL_pos hw2, hTe]

/-- Witness for claim C9 at concrete statements: a statement with a bare
limit word is returned trimmed-unchanged, a statement without one gets the
clause appended, and idempotence holds on a nonempty trimmed statement. -/
theorem ensureLimit_behavior_witness :
    ensureLimit "SELECT a AS limit FROM t" 100 = "SELECT a AS limit FROM t" ∧
    ensureLimit "SELECT 1" 50 = "SELECT 1 LIMIT 50" ∧
    ensureLimit (ensureLimit "SELECT 1" 100) 100 = ensureLimit "SELECT 1" 100 := by
  refine ⟨?_, ?_, ensureLimit_behavior.2.2.1 "SELECT 1" 100 (by decide)⟩
  · have h := ensureLimit_behavior.1 "SELECT a AS limit FROM t" 100 (by decide)
    rw [h]
    decide
  · have h := ensureLimit_behavior.2.1 "SELECT 1" 50 (by decide)
    rw [h]
    decide

/-- Claim C10 counterexample: a guard-accepted statement carrying a bare
limit word and surrounding whitespace is not returned unchanged by
ensureLimit - the statement is trimmed. -/
theorem unbounded_limit_gap_counterexample :
    isSafeSelect " SELECT 1 AS limit" = true ∧
    limitValue " SELECT 1 AS limit" = none ∧
    hasRandomOrder " SELECT 1 AS limit" = false ∧
    ensureLimit " SELECT 1 AS limit" 1000 ≠ " SELECT 1 AS limit" := by
  refine ⟨by decide, by decide, by decide, by decide⟩

/-- Claim C10 as amended: for every guard-accepted statement whose trimmed
form contains the standalone word limit with no following integer literal,
ensureLimit returns the trimmed statement without appending any LIMIT
clause, limitValue of the result is none, so the exceeds-maximum check is
skipped and the statement reaches runSelect with no numeric LIMIT bound. -/
theorem unbounded_limit_gap :
    ∀ (maxLimit : Nat) (rawSql : String),
      isSafeSelect rawSql = true → hasRandomOrder rawSql = false →
      hasWord (("limit").data) (lower (jsTrim rawSql.data)) = true →
      limitValueL (jsTrim rawSql.data) = none →
      ensureLimit rawSql (Nat.min maxLimit 1000) = ⟨jsTrim rawSql.data⟩ ∧
      limitValue (⟨jsTrim rawSql.data⟩ : String) = none ∧
      guardPhase maxLimit rawSql = .ok ⟨jsTrim rawSql.data⟩ := by
  intro maxLimit rawSql hsafe hrand hlim hnone
  have he : ensureLimit rawSql (Nat.min maxLimit 1000) = ⟨jsTrim rawSql.data⟩ := by
    show (⟨ensureLimitL rawSql.data (Nat.min maxLimit 1000)⟩ : String) = _
    rw [ensureLimitL_pos hlim]
  have hlv : limitValue (⟨jsTrim rawSql.data⟩ : String) = none := hnone
  refine ⟨he, hlv, ?_⟩
  unfold guardPhase
  rw [hsafe, hrand]
  simp only [Bool.not_true, Bool.false_eq_true, if_false]
  rw [he, hlv]

/-- Witness for claim C10 at a concrete statement using limit as a column
alias: the guard accepts it and it reaches execution with no LIMIT bound. -/
theorem unbounded_limit_gap_witness :
    guardPhase 1000 "SELECT 1 AS limit" = .ok "SELECT 1 AS limit" ∧
    limitValue "SELECT 1 AS limit" = none := by
  have h := unbounded_limit_gap 1000 "SELECT 1 AS limit" (by decide) (by decide)
    (by decide) (by rfl)
  have heq : (⟨jsTrim ("SELECT 1 AS limit").data⟩ : String) = "SELECT 1 AS limit" := by decide
  refine ⟨?_, ?_⟩
  · have h2 := h.2.2
    rw [heq] at h2
    exact h2
  · have h2 := h.2.1
    rw [heq] at h2
    exact h2

/-- Claim C7: pickTopK is deterministic and pure - identical inputs give
identical ordered output (the embedding is a pure function of (cards,
phrase, k), with no other inputs and no effect on its arguments). -/
theorem pickTopK_deterministic :
    ∀ (cards1 cards2 : List RelationCard) (phrase1 phrase2 : String) (k1 k2 : Nat),
      cards1 = cards2 → phrase1 = phrase2 → k1 = k2 →
      pickTopK cards1 phrase1 k1 = pickTopK cards2 phrase2 k2 := by
  intro cards1 cards2 phrase1 phrase2 k1 k2 h1 h2 h3
  rw [h1, h2, h3]

/-- Witness for claim C7 at a concrete call. -/
theorem pickTopK_deterministic_witness :
    pickTopK [] "orders" 6 = pickTopK [] "orders" 6 :=
  pickTopK_deterministic [] [] "orders" "orders" 6 6 rfl rfl rfl

end Searchy
